import Mathlib

/-!
Verification development for the Linear CorEx estimator (`linear_corex.py`).

The numpy program is shallowly embedded over `ℝ`: data matrices become
`Matrix (Fin n) (Fin d) ℝ`, the moments dictionary becomes the structure
`Moments`, `np.linalg.solve` becomes `msolve` (the unique solution of the
linear system when the matrix is invertible, expressed through the adjugate),
and the fitting loop becomes the fuel-indexed recursion `fitLoop`.
-/

open scoped BigOperators
open Matrix

namespace LinearCorex

noncomputable section

/-- The dictionary of moments built by `_calculate_moments`:
`var` is `"X_i^2"`, `xy` is `"X_i Y_j"`, `cy` is `"cy"`, `xz` is `"X_i Z_j"`,
`resid` is `"X_i^2 | Y"` and `y2` is `"Y_j^2"`. -/
@[ext]
structure Moments (dd mm : ℕ) where
  var : Fin dd → ℝ
  xy : Matrix (Fin dd) (Fin mm) ℝ
  cy : Matrix (Fin mm) (Fin mm) ℝ
  xz : Matrix (Fin dd) (Fin mm) ℝ
  resid : Fin dd → ℝ
  y2 : Fin mm → ℝ

variable {nn dd mm : ℕ}

/-- Model of `np.linalg.solve A B`: for invertible `A` this is the unique
solution of `A * Z = B`, written through the adjugate formula for `A⁻¹`. -/
def msolve (A : Matrix (Fin mm) (Fin mm) ℝ) (B : Matrix (Fin mm) (Fin dd) ℝ) :
    Matrix (Fin mm) (Fin dd) ℝ :=
  ((A.det)⁻¹ • A.adjugate) * B

/-- Line `y = x.dot(self.ws.T)` of `_calculate_moments`. -/
def latentY (x : Matrix (Fin nn) (Fin dd) ℝ) (w : Matrix (Fin mm) (Fin dd) ℝ) :
    Matrix (Fin nn) (Fin mm) ℝ :=
  x * wᵀ

/-- Line `m["X_i Y_j"] = x.T.dot(y) / len(y)` of `_calculate_moments`. -/
def crossXY (x : Matrix (Fin nn) (Fin dd) ℝ) (w : Matrix (Fin mm) (Fin dd) ℝ) :
    Matrix (Fin dd) (Fin mm) ℝ :=
  Matrix.of fun i j => (∑ l, x l i * latentY x w l j) / (nn : ℝ)

/-- Line `m["cy"] = self.ws.dot(m["X_i Y_j"]) + self.noise ** 2 * np.eye(self.m)`. -/
def covY (noise : ℝ) (x : Matrix (Fin nn) (Fin dd) ℝ) (w : Matrix (Fin mm) (Fin dd) ℝ) :
    Matrix (Fin mm) (Fin mm) ℝ :=
  w * crossXY x w + noise ^ 2 • (1 : Matrix (Fin mm) (Fin mm) ℝ)

/-- Line `m["X_i Z_j"] = np.linalg.solve(m["cy"], m["X_i Y_j"].T).T`. -/
def crossXZ (noise : ℝ) (x : Matrix (Fin nn) (Fin dd) ℝ) (w : Matrix (Fin mm) (Fin dd) ℝ) :
    Matrix (Fin dd) (Fin mm) ℝ :=
  (msolve (covY noise x w) (crossXY x w)ᵀ)ᵀ

/-- The variance line of `_calculate_moments`: the cached `"X_i^2"` entry is used
when present, otherwise `np.einsum('li,li->i', x, x) / len(x)`. -/
def varOrCache (x : Matrix (Fin nn) (Fin dd) ℝ) (cache : Option (Fin dd → ℝ)) :
    Fin dd → ℝ :=
  cache.getD (fun i => (∑ l, x l i * x l i) / (nn : ℝ))

/-- `_calculate_moments(x)`, with the presence of the `"X_i^2"` key in
`self.moments` modelled by the `cache` argument. -/
def calculate_moments (noise : ℝ) (x : Matrix (Fin nn) (Fin dd) ℝ)
    (w : Matrix (Fin mm) (Fin dd) ℝ) (cache : Option (Fin dd → ℝ)) : Moments dd mm where
  var := varOrCache x cache
  xy := crossXY x w
  cy := covY noise x w
  xz := crossXZ noise x w
  resid := fun i => varOrCache x cache i - ∑ j, crossXZ noise x w i j * crossXY x w i j
  y2 := fun j => covY noise x w j j

/-- Column means of the data, `x.mean(axis=0)`. -/
def colMean (x : Matrix (Fin nn) (Fin dd) ℝ) : Fin dd → ℝ :=
  fun i => (∑ l, x l i) / (nn : ℝ)

/-- The centering `x -= self.mean_x` performed by `fit`. -/
def center (x : Matrix (Fin nn) (Fin dd) ℝ) : Matrix (Fin nn) (Fin dd) ℝ :=
  Matrix.of fun l i => x l i - colMean x i

/-- `scipy.stats.rankdata` with the default average method: the rank of entry `l`
in the vector `v`, ties receiving the mean of their ordinal ranks. -/
def rankAvg (v : Fin nn → ℝ) (l : Fin nn) : ℝ :=
  ((Finset.univ.filter fun k => v k < v l).card : ℝ) +
    (((Finset.univ.filter fun k => v k = v l).card : ℝ) + 1) / 2

/-- `gaussianize(x)` applied column-wise, with `scipy.stats.norm.ppf` kept
abstract as the parameter `ppf`. -/
def gaussianize (ppf : ℝ → ℝ) (x : Matrix (Fin nn) (Fin dd) ℝ) :
    Matrix (Fin nn) (Fin dd) ℝ :=
  Matrix.of fun l i => ppf ((rankAvg (fun k => x k i) l - 1 / 2) / (nn : ℝ))

/-- `scipy.special.expit`, the logistic sigmoid. -/
def expit (t : ℝ) : ℝ :=
  1 / (1 + Real.exp (-t))

/-- `calculate_mi(moments)`: the matrix of pairwise mutual informations,
factor index first (the `.T` of the code). -/
def calculate_mi (M : Moments dd mm) : Matrix (Fin mm) (Fin dd) ℝ :=
  Matrix.of fun j i => -(1 / 2) * Real.log (1 - M.xy i j ^ 2 / (M.y2 j * M.var i))

/-- The `tcs` property: per-factor total correlation contributions. -/
def tcs (noise : ℝ) (M : Moments dd mm) : Fin mm → ℝ :=
  fun j => (∑ i, calculate_mi M j i) -
    ((1 / 2) * Real.log (M.y2 j) - (1 / 2) * Real.log (noise ^ 2))

/-- The `tc` property: total correlation summed over factors. -/
def tc (noise : ℝ) (M : Moments dd mm) : ℝ :=
  ∑ j, tcs noise M j

/-- The `additivity` property. -/
def additivity (M : Moments dd mm) : Fin dd → ℝ :=
  fun i => (∑ j, calculate_mi M j i) -
    ((1 / 2) * Real.log (M.var i) - (1 / 2) * Real.log (M.resid i))

/-- Line `Q = ...` of `_update_ws` (an `m × nv` array). -/
def updateQ (M : Moments dd mm) : Matrix (Fin mm) (Fin dd) ℝ :=
  Matrix.of fun j i => M.xy i j / (M.var i * M.y2 j - M.xy i j ^ 2)

/-- Line `R = ...` of `_update_ws` (an `m × nv` array). -/
def updateR (M : Moments dd mm) : Matrix (Fin mm) (Fin dd) ℝ :=
  Matrix.of fun j i => M.xz i j / M.resid i

/-- The einsum `H` of `_update_ws`, before its diagonal is zeroed. -/
def interH (M : Moments dd mm) (lam : Fin dd → ℝ) : Matrix (Fin mm) (Fin mm) ℝ :=
  Matrix.of fun r s => ∑ i, M.xz i r * (1 / M.resid i) * M.xz i s * (1 - lam i)

/-- `H` after `np.fill_diagonal(H, 0)`. -/
def interHz (M : Moments dd mm) (lam : Fin dd → ℝ) : Matrix (Fin mm) (Fin mm) ℝ :=
  Matrix.of fun r s => if r = s then 0 else interH M lam r s

/-- The weight half of `_update_ws`: the damped fixed-point step
`0.5 * (ws + noise^2 * (lam * Q + (1 - lam) * R - H.dot(ws)))` at the
multipliers `lam` in effect. -/
def update_w (noise : ℝ) (M : Moments dd mm) (w : Matrix (Fin mm) (Fin dd) ℝ)
    (lam : Fin dd → ℝ) : Matrix (Fin mm) (Fin dd) ℝ :=
  Matrix.of fun j i =>
    (1 / 2) * (w j i + noise ^ 2 *
      (lam i * updateQ M j i + (1 - lam i) * updateR M j i - (interHz M lam * w) j i))

/-- The accumulator `ai = np.einsum('ji,ij->i', noise**2 * Q - ws, m["X_i Y_j"])`. -/
def accumA (noise : ℝ) (M : Moments dd mm) (w : Matrix (Fin mm) (Fin dd) ℝ) :
    Fin dd → ℝ :=
  fun i => ∑ j, (noise ^ 2 * updateQ M j i - w j i) * M.xy i j

/-- The accumulator `bi = np.einsum('ji,ij->i', noise**2 * R - ws, m["X_i Y_j"])`. -/
def accumB (noise : ℝ) (M : Moments dd mm) (w : Matrix (Fin mm) (Fin dd) ℝ) :
    Fin dd → ℝ :=
  fun i => ∑ j, (noise ^ 2 * updateR M j i - w j i) * M.xy i j

/-- The Lagrange-multiplier half of `_update_ws`:
`self.lam = np.where(self.additivity < 0, expit(0.5 * np.log(np.abs(bi / ai))), 0)`. -/
def update_lam (noise : ℝ) (M : Moments dd mm) (w : Matrix (Fin mm) (Fin dd) ℝ) :
    Fin dd → ℝ :=
  fun i => if additivity M i < 0
    then expit ((1 / 2) * Real.log |accumB noise M w i / accumA noise M w i|)
    else 0

/-- `_update_ws()`: when `additive` is set the multipliers are recomputed first,
then the weights are updated at the multipliers in effect. -/
def update_ws (noise : ℝ) (additive : Bool) (M : Moments dd mm)
    (w : Matrix (Fin mm) (Fin dd) ℝ) (lam : Fin dd → ℝ) :
    Matrix (Fin mm) (Fin dd) ℝ × (Fin dd → ℝ) :=
  (update_w noise M w (if additive then update_lam noise M w else lam),
    if additive then update_lam noise M w else lam)

/-- The mutable state driven by the iteration loop of `fit`: the weights, the
multipliers, `self.moments` (`none` models the initial empty dictionary) and
the total-correlation trace `self.tc_history`, most recent entry first. -/
structure LoopState (dd mm : ℕ) where
  ws : Matrix (Fin mm) (Fin dd) ℝ
  lam : Fin dd → ℝ
  mom : Option (Moments dd mm)
  hist : List ℝ

/-- One iteration of the loop body of `fit`: recompute the moments (reusing the
cached variance when the dictionary is nonempty), append the total correlation
to the trace, then run `_update_ws`. -/
def fitStep (noise : ℝ) (additive : Bool) (x : Matrix (Fin nn) (Fin dd) ℝ)
    (s : LoopState dd mm) : LoopState dd mm :=
  let M := calculate_moments noise x s.ws (Option.map Moments.var s.mom)
  ⟨(update_ws noise additive M s.ws s.lam).1,
    (update_ws noise additive M s.ws s.lam).2,
    some M,
    tc noise M :: s.hist⟩

/-- The stopping test `np.abs(self.tc_history[-1] - self.tc_history[-2]) < self.tol`. -/
abbrev convCheck (tol : ℝ) (s : LoopState dd mm) : Prop :=
  |s.hist.headD 0 - s.hist.tail.headD 0| < tol

/-- The iteration loop of `fit`, with the iteration budget as fuel. Returns the
final state, the number of loop bodies executed, and whether the loop exited
through the `break` (convergence) rather than by exhausting the budget. -/
def fitLoop (noise tol : ℝ) (additive : Bool) (x : Matrix (Fin nn) (Fin dd) ℝ) :
    ℕ → LoopState dd mm → LoopState dd mm × ℕ × Bool
  | 0, s => (s, 0, false)
  | k + 1, s =>
    let s2 := fitStep noise additive x s
    if convCheck tol s2 then (s2, 1, true)
    else
      let r := fitLoop noise tol additive x k s2
      (r.1, r.2.1 + 1, r.2.2)

/-- The frozen model state after `fit`. -/
structure ModelState (dd mm : ℕ) where
  ws : Matrix (Fin mm) (Fin dd) ℝ
  lam : Fin dd → ℝ
  moments : Option (Moments dd mm)
  mean_x : Fin dd → ℝ
  hist : List ℝ
  nIter : ℕ
  converged : Bool

/-- The `tcs` read off an optional moments dictionary (`0` when absent; the
reference raises a `KeyError` there, which is outside the claims' domain). -/
def optTcs (noise : ℝ) (o : Option (Moments dd mm)) : Fin mm → ℝ :=
  fun j => (o.map fun M => tcs noise M j).getD 0

/-- The `"X_i Z_j"` entry read off an optional moments dictionary. -/
def optXz (o : Option (Moments dd mm)) : Matrix (Fin dd) (Fin mm) ℝ :=
  (o.map Moments.xz).getD 0

/-- The preprocessing of `fit`: gaussianize, or subtract the column means. -/
def fitInput (gauss : Bool) (ppf : ℝ → ℝ) (x : Matrix (Fin nn) (Fin dd) ℝ) :
    Matrix (Fin nn) (Fin dd) ℝ :=
  if gauss then gaussianize ppf x else center x

/-- The loop state entering the first iteration: the (post-initialization)
weights and the initial scalar multiplier broadcast across variables
(`self.lam = self.lam * np.ones(self.nv)`), empty moments, trace `[0]`. -/
def initState (lamInit : ℝ) (w0 : Matrix (Fin mm) (Fin dd) ℝ) : LoopState dd mm :=
  ⟨w0, fun _ => lamInit, none, [0]⟩

/-- `order = np.argsort(-self.tcs)` at the end of `fit`, modelled by the
canonical sorting permutation of the negated contributions. -/
def fitOrd (noise : ℝ) (s : LoopState dd mm) : Equiv.Perm (Fin mm) :=
  Tuple.sort fun j => -(optTcs noise s.mom j)

/-- `fit(x)`: preprocess, run the loop, then reorder the factor rows by the
just-measured contributions and recompute the moments once under the new
order. `w0` stands for the randomly initialized, symmetrically decorrelated
and rescaled starting weights. -/
def fit (noise tol : ℝ) (additive gauss : Bool) (ppf : ℝ → ℝ) (lamInit : ℝ)
    (maxIter : ℕ) (x : Matrix (Fin nn) (Fin dd) ℝ)
    (w0 : Matrix (Fin mm) (Fin dd) ℝ) : ModelState dd mm :=
  let x2 := fitInput gauss ppf x
  let r := fitLoop noise tol additive x2 maxIter (initState lamInit w0)
  ⟨(r.1.ws).submatrix (fitOrd noise r.1) id,
    r.1.lam,
    some (calculate_moments noise x2 ((r.1.ws).submatrix (fitOrd noise r.1) id)
      (Option.map Moments.var r.1.mom)),
    if gauss then (fun _ => 0) else colMean x,
    r.1.hist,
    r.2.1,
    r.2.2⟩

/-- The preprocessing of `transform`: gaussianize the new data, or subtract the
stored fit-time mean. -/
def transform_x2 (gauss : Bool) (ppf : ℝ → ℝ) (mean_x : Fin dd → ℝ)
    (x : Matrix (Fin nn) (Fin dd) ℝ) : Matrix (Fin nn) (Fin dd) ℝ :=
  if gauss then gaussianize ppf x else Matrix.of fun l i => x l i - mean_x i

/-- `transform(x)` (the `details=False` value): latent values of new data. -/
def transform (gauss : Bool) (ppf : ℝ → ℝ) (st : ModelState dd mm)
    (x : Matrix (Fin nn) (Fin dd) ℝ) : Matrix (Fin nn) (Fin mm) ℝ :=
  transform_x2 gauss ppf st.mean_x x * st.wsᵀ

/-- `transform(x, details=True)`: latent values together with the moments
recomputed for the new data (reusing the cached variance when the stored
moments dictionary is nonempty, exactly as `_calculate_moments` does). -/
def transform_details (noise : ℝ) (gauss : Bool) (ppf : ℝ → ℝ) (st : ModelState dd mm)
    (x : Matrix (Fin nn) (Fin dd) ℝ) :
    Matrix (Fin nn) (Fin mm) ℝ × Moments dd mm :=
  (transform gauss ppf st x,
    calculate_moments noise (transform_x2 gauss ppf st.mean_x x) st.ws
      (Option.map Moments.var st.moments))

/-- The caller's array after `transform` returns: `np.array(x, copy=self.copy)`
aliases the caller's buffer when `copy=False`, and the branch
`x -= self.mean_x` then mutates it in place (the gaussianize branch rebinds
`x` instead and leaves the buffer alone). -/
def transform_buffer (copy gauss : Bool) (st : ModelState dd mm)
    (x : Matrix (Fin nn) (Fin dd) ℝ) : Matrix (Fin nn) (Fin dd) ℝ :=
  if copy then x else if gauss then x else Matrix.of fun l i => x l i - st.mean_x i

/-- `predict(y) = np.dot(self.moments["X_i Z_j"], y.T).T`. -/
def predict (st : ModelState dd mm) (y : Matrix (Fin nn) (Fin mm) ℝ) :
    Matrix (Fin nn) (Fin dd) ℝ :=
  (optXz st.moments * yᵀ)ᵀ

/-- For an invertible coefficient matrix, `msolve` solves the linear system,
as `np.linalg.solve` does. -/
theorem msolve_mul (A : Matrix (Fin mm) (Fin mm) ℝ) (B : Matrix (Fin mm) (Fin dd) ℝ)
    (h : A.det ≠ 0) : A * msolve A B = B := by
  rw [msolve, ← Matrix.mul_assoc, Matrix.mul_smul, Matrix.mul_adjugate, smul_smul,
    inv_mul_cancel₀ h, one_smul, Matrix.one_mul]

/-- Claim C1: for every moments bundle, weights `W` and multipliers `λ`, the
weight update replaces `W` by `0.5·(W + σ²·(λ⊙Q + (1−λ)⊙R − S))` with
`Q_{j,i} = C_{i,j}/(var_i·Y²_j − C_{i,j}²)`, `R_{j,i} = Z_{j,i}/resid_i`,
`H_{r,s} = Σ_i Z_{r,i}·(1/resid_i)·Z_{s,i}·(1−λ_i)` with zeroed diagonal,
`S = H·W`, and `λ⊙Q` scaling `Q`'s columns elementwise by `λ`; and
`_update_ws` performs exactly this update at the multipliers in effect. -/
theorem claim_C1 (noise : ℝ) (M : Moments dd mm) (w : Matrix (Fin mm) (Fin dd) ℝ)
    (lam : Fin dd → ℝ) (additive : Bool) :
    (∀ j i, update_w noise M w lam j i =
      (1 / 2) * (w j i + noise ^ 2 *
        (lam i * (M.xy i j / (M.var i * M.y2 j - M.xy i j ^ 2))
          + (1 - lam i) * (M.xz i j / M.resid i)
          - ∑ r, (if j = r then 0
              else ∑ k, M.xz k j * (1 / M.resid k) * M.xz k r * (1 - lam k)) * w r i)))
    ∧ (update_ws noise additive M w lam).1 =
        update_w noise M w (update_ws noise additive M w lam).2 := by
  constructor
  · intro j i
    simp [update_w, updateQ, updateR, interHz, interH, Matrix.mul_apply]
  · rfl

/-- Claim C10: `predict(Y)` returns exactly `Y·Zᵀ` for the cleaned cross-moment
`Z` of the last-computed moments, and is independent of the stored mean
vector (the mean is never added back). -/
theorem claim_C10 (st : ModelState dd mm) (y : Matrix (Fin nn) (Fin mm) ℝ) :
    (∀ l i, predict st y l i = ∑ j, y l j * optXz st.moments i j)
    ∧ ∀ mu : Fin dd → ℝ, predict { st with mean_x := mu } y = predict st y := by
  constructor
  · intro l i
    simp [predict, Matrix.mul_apply, mul_comm]
  · intro mu
    rfl

/-- Claim C2: the moments bundle of `_calculate_moments` on fresh data
satisfies, in order, the variance, cross-moment, latent-covariance,
linear-solve, residual-variance and latent-second-moment equations. -/
theorem claim_C2 (noise : ℝ) (x : Matrix (Fin nn) (Fin dd) ℝ)
    (w : Matrix (Fin mm) (Fin dd) ℝ) (h : (covY noise x w).det ≠ 0) :
    (∀ i, (calculate_moments noise x w none).var i = (∑ l, x l i * x l i) / nn)
    ∧ (∀ i j, (calculate_moments noise x w none).xy i j =
        (∑ l, x l i * ∑ k, x l k * w j k) / nn)
    ∧ (calculate_moments noise x w none).cy =
        w * (calculate_moments noise x w none).xy + noise ^ 2 • 1
    ∧ (calculate_moments noise x w none).cy * ((calculate_moments noise x w none).xz)ᵀ =
        ((calculate_moments noise x w none).xy)ᵀ
    ∧ (∀ i, (calculate_moments noise x w none).resid i =
        (calculate_moments noise x w none).var i -
          ∑ j, (calculate_moments noise x w none).xz i j *
            (calculate_moments noise x w none).xy i j)
    ∧ (∀ j, (calculate_moments noise x w none).y2 j =
        (calculate_moments noise x w none).cy j j) := by
  refine ⟨fun i => rfl, fun i j => ?_, rfl, ?_, fun i => rfl, fun j => rfl⟩
  · simp [calculate_moments, crossXY, latentY, Matrix.mul_apply]
  · show covY noise x w * (crossXZ noise x w)ᵀ = (crossXY x w)ᵀ
    rw [crossXZ, Matrix.transpose_transpose]
    exact msolve_mul _ _ h

/-- Witness for C2: on a concrete one-sample, one-variable, one-factor input
the latent covariance is invertible and the solve equation holds. -/
theorem claim_C2_witness :
    (covY 1 !![(2 : ℝ)] !![(1 : ℝ)]).det ≠ 0 ∧
      (calculate_moments 1 !![(2 : ℝ)] !![(1 : ℝ)] none).cy *
          ((calculate_moments 1 !![(2 : ℝ)] !![(1 : ℝ)] none).xz)ᵀ =
        ((calculate_moments 1 !![(2 : ℝ)] !![(1 : ℝ)] none).xy)ᵀ := by
  have h : (covY 1 !![(2 : ℝ)] !![(1 : ℝ)]).det ≠ 0 := by
    norm_num [covY, crossXY, latentY, Matrix.det_fin_one, Matrix.mul_apply, Fin.sum_univ_one,
      Matrix.one_apply]
  exact ⟨h, (claim_C2 1 !![(2 : ℝ)] !![(1 : ℝ)] h).2.2.2.1⟩

/-- A fitted model state used to exhibit the variance-cache behaviour of
`transform(x, details=True)`: its moments dictionary is nonempty and caches
the fit-time variance `1`. -/
def stC4 : ModelState 1 1 :=
  ⟨!![(1 : ℝ)], fun _ => 0, some ⟨fun _ => 1, 0, 0, 0, fun _ => 0, fun _ => 0⟩,
    fun _ => 0, [], 0, false⟩

/-- Claim C4, behaviour of the code at the failing input: with a nonempty
moments dictionary caching variance `1`, `transform([[2]], details=True)`
returns the cached fit-time variance `1`, not the variance `4` of the new
centered data, contradicting the recompute-on-new-data claim (and the
docstring of `_calculate_moments` itself). -/
theorem claim_C4_bug :
    (transform_details 1 false id stC4 !![(2 : ℝ)]).2.var 0 = 1
    ∧ varOrCache (transform_x2 false id stC4.mean_x !![(2 : ℝ)]) none 0 = 4
    ∧ (1 : ℝ) ≠ 4 := by
  refine ⟨rfl, ?_, by norm_num⟩
  norm_num [varOrCache, transform_x2, stC4, Fin.sum_univ_one]

/-- Fit-time data for the gaussianization claim: one variable, samples 1,2,3. -/
def xfitC5 : Matrix (Fin 3) (Fin 1) ℝ := !![1; 2; 3]

/-- New data for the gaussianization claim: one variable, samples 2,3,4. -/
def xnewC5 : Matrix (Fin 3) (Fin 1) ℝ := !![2; 3; 4]

/-- Claim C5, behaviour of the code at the failing input: with gaussianization
enabled, `transform` gaussianizes the new data by its own ranks, ignoring the
fit-time data entirely (whatever mean is stored): the sample of value 2 in the
new data is mapped to `ppf(1/6)`, while the fit-time gaussianization mapped
the value 2 to `ppf(1/2)` — so the fit-time map is not what transform applies
(the code's own comment reads `Should gaussianize wrt to original data...`). -/
theorem claim_C5_bug :
    transform_x2 true id (fun _ => 37) xnewC5 0 0 = 1 / 6
    ∧ gaussianize id xfitC5 1 0 = 1 / 2
    ∧ ((1 : ℝ) / 6) ≠ 1 / 2 := by
  refine ⟨?_, ?_, by norm_num⟩
  · have h1 : (Finset.univ.filter fun k => xnewC5 k 0 < xnewC5 0 0) = (∅ : Finset (Fin 3)) := by
      rw [Finset.eq_empty_iff_forall_not_mem]
      intro k
      fin_cases k <;> simp [xnewC5] <;> norm_num
    have h2 : (Finset.univ.filter fun k => xnewC5 k 0 = xnewC5 0 0) = ({0} : Finset (Fin 3)) := by
      rw [Finset.eq_singleton_iff_unique_mem]
      refine ⟨by simp, ?_⟩
      intro k hk
      simp only [Finset.mem_filter] at hk
      fin_cases k <;> simp_all [xnewC5]
    rw [transform_x2, if_pos rfl, gaussianize]
    simp only [Matrix.of_apply, rankAvg, h1, h2]
    norm_num
  · have h1 : (Finset.univ.filter fun k => xfitC5 k 0 < xfitC5 1 0) = ({0} : Finset (Fin 3)) := by
      rw [Finset.eq_singleton_iff_unique_mem]
      refine ⟨by simp [xfitC5], ?_⟩
      intro k hk
      simp only [Finset.mem_filter] at hk
      fin_cases k <;> simp_all [xfitC5] <;> norm_num at hk
    have h2 : (Finset.univ.filter fun k => xfitC5 k 0 = xfitC5 1 0) = ({1} : Finset (Fin 3)) := by
      rw [Finset.eq_singleton_iff_unique_mem]
      refine ⟨by simp, ?_⟩
      intro k hk
      simp only [Finset.mem_filter] at hk
      fin_cases k <;> simp_all [xfitC5]
    rw [gaussianize]
    simp only [Matrix.of_apply, rankAvg, h1, h2]
    norm_num

/-- A fitted model state with a nonzero stored mean, used to exhibit the
in-place mutation of the caller's buffer by `transform` when `copy=False`. -/
def stC9 : ModelState 1 1 :=
  ⟨!![(1 : ℝ)], fun _ => 0, none, fun _ => 1, [], 0, false⟩

/-- Counterexample to claim C9 as stated: for a model configured with
`copy=False`, the first `transform` call subtracts the mean from the caller's
buffer in place, so a second call on the same array yields a different
output. -/
theorem claim_C9_counterexample :
    transform false id stC9 (transform_buffer false false stC9 !![(1 : ℝ)]) 0 0 ≠
      transform false id stC9 !![(1 : ℝ)] 0 0 := by
  norm_num [transform, transform_x2, transform_buffer, stC9, Matrix.mul_apply, Fin.sum_univ_one]

/-- Claim C9, amended: for models configured with `copy=True` (the default),
`transform` leaves the caller's array unchanged, and calling it twice in
succession on the same array yields identical outputs — it is a pure function
of the frozen state and its input. -/
theorem claim_C9_amended (gauss : Bool) (ppf : ℝ → ℝ) (st : ModelState dd mm)
    (x : Matrix (Fin nn) (Fin dd) ℝ) :
    transform_buffer true gauss st x = x
    ∧ transform gauss ppf st (transform_buffer true gauss st x) = transform gauss ppf st x := by
  constructor
  · simp [transform_buffer]
  · simp [transform_buffer]

/-- The latent covariance built by the Moment Estimator is the Gram matrix of
the latent values scaled by `1/n`, plus the noise floor on the diagonal. -/
theorem covY_eq (noise : ℝ) (x : Matrix (Fin nn) (Fin dd) ℝ) (w : Matrix (Fin mm) (Fin dd) ℝ) :
    covY noise x w = ((nn : ℝ))⁻¹ • ((x * wᵀ)ᵀ * (x * wᵀ)) + noise ^ 2 • 1 := by
  rw [covY]
  congr 1
  ext j k
  simp only [Matrix.mul_apply, Matrix.of_apply, crossXY, latentY, Matrix.smul_apply,
    Matrix.transpose_apply, smul_eq_mul, Matrix.mul_apply]
  simp only [div_eq_mul_inv, Finset.sum_mul, Finset.mul_sum]
  rw [Finset.sum_comm]
  refine Finset.sum_congr rfl fun l _ => ?_
  rw [Finset.sum_comm]
  refine Finset.sum_congr rfl fun i _ => ?_
  refine Finset.sum_congr rfl fun i2 _ => ?_
  ring

/-- Claim C8, amended: for every data matrix, every weight matrix and every
noise `σ > 0`, the latent covariance `cov = W·C + σ²·I` is symmetric positive
definite, so the linear solve of the Moment Estimator is well-posed. (With
`σ = 0` positive definiteness can fail, but not only through rank-deficient
`W`: degenerate data alone suffices — see the counterexample.) -/
theorem claim_C8_amended (noise : ℝ) (x : Matrix (Fin nn) (Fin dd) ℝ)
    (w : Matrix (Fin mm) (Fin dd) ℝ) (h : 0 < noise) :
    (covY noise x w).IsSymm ∧ (covY noise x w).PosDef := by
  have hsymm : (covY noise x w).IsSymm := by
    rw [Matrix.IsSymm, covY_eq, Matrix.transpose_add, Matrix.transpose_smul,
      Matrix.transpose_smul, Matrix.transpose_mul, Matrix.transpose_transpose,
      Matrix.transpose_one]
  refine ⟨hsymm, ⟨?_, fun v hv => ?_⟩⟩
  · rw [Matrix.IsHermitian, Matrix.conjTranspose_eq_transpose_of_trivial]
    exact hsymm
  · have hstar : (star v : Fin mm → ℝ) = v := by simp
    rw [hstar, covY_eq, Matrix.add_mulVec, Matrix.smul_mulVec_assoc, Matrix.smul_mulVec_assoc,
      Matrix.one_mulVec, dotProduct_add, dotProduct_smul, dotProduct_smul]
    have h1 : 0 ≤ v ⬝ᵥ ((x * wᵀ)ᵀ * (x * wᵀ)) *ᵥ v := by
      rw [← Matrix.mulVec_mulVec, Matrix.dotProduct_mulVec, Matrix.vecMul_transpose]
      exact Finset.sum_nonneg fun j _ => mul_self_nonneg _
    have h2 : 0 < v ⬝ᵥ v := by
      have := Matrix.dotProduct_star_self_pos_iff.mpr hv
      rwa [hstar] at this
    have h3 : (0 : ℝ) ≤ ((nn : ℝ))⁻¹ := by positivity
    have h4 : (0 : ℝ) < noise ^ 2 := by positivity
    have := add_pos_of_nonneg_of_pos (mul_nonneg h3 h1) (mul_pos h4 h2)
    simpa [smul_eq_mul] using this

/-- Witness for the amended C8 on a concrete input with `σ = 1 > 0`. -/
theorem claim_C8_witness :
    (0 : ℝ) < 1 ∧
      ((covY 1 !![(2 : ℝ)] !![(1 : ℝ)]).IsSymm ∧ (covY 1 !![(2 : ℝ)] !![(1 : ℝ)]).PosDef) :=
  ⟨by norm_num, claim_C8_amended 1 !![(2 : ℝ)] !![(1 : ℝ)] (by norm_num)⟩

/-- Counterexample to claim C8 as stated: with `σ = 0`, a full-rank `W`
(determinant 1 ≠ 0) and degenerate data, the latent covariance is not positive
definite — so positive definiteness can fail without `W` being
rank-deficient. -/
theorem claim_C8_counterexample :
    ¬ (covY (0 : ℝ) !![(0 : ℝ)] !![(1 : ℝ)]).PosDef ∧
      (!![(1 : ℝ)] : Matrix (Fin 1) (Fin 1) ℝ).det ≠ 0 := by
  constructor
  · intro hpd
    have hz : covY (0 : ℝ) !![(0 : ℝ)] !![(1 : ℝ)] = 0 := by
      ext i j
      fin_cases i
      fin_cases j
      norm_num [covY, crossXY, latentY, Matrix.mul_apply, Fin.sum_univ_one, Matrix.one_apply]
    have hv : (![1] : Fin 1 → ℝ) ≠ 0 := by
      intro h0
      have := congrFun h0 0
      norm_num at this
    have := hpd.2 ![1] hv
    rw [hz] at this
    simp at this
  · norm_num [Matrix.det_fin_one]

/-- The logistic sigmoid takes values in the unit interval. -/
theorem expit_mem (t : ℝ) : expit t ∈ Set.Icc (0 : ℝ) 1 := by
  have he : (0 : ℝ) < 1 + Real.exp (-t) := by positivity
  simp only [Set.mem_Icc, expit]
  constructor
  · positivity
  · rw [div_le_one he]
    have := Real.exp_pos (-t)
    linarith

/-- Each multiplier produced by the dynamic update of `_update_ws` lies in
`[0, 1]`: it is either `0` or a value of the logistic sigmoid. -/
theorem update_lam_mem (noise : ℝ) (M : Moments dd mm) (w : Matrix (Fin mm) (Fin dd) ℝ)
    (i : Fin dd) : update_lam noise M w i ∈ Set.Icc (0 : ℝ) 1 := by
  rw [update_lam]
  split
  · exact expit_mem _
  · exact ⟨le_refl 0, by norm_num⟩

/-- One loop iteration preserves the unit-interval invariant on `λ`. -/
theorem fitStep_lam_mem (noise : ℝ) (additive : Bool) (x : Matrix (Fin nn) (Fin dd) ℝ)
    (s : LoopState dd mm) (hs : ∀ i, s.lam i ∈ Set.Icc (0 : ℝ) 1) :
    ∀ i, (fitStep noise additive x s).lam i ∈ Set.Icc (0 : ℝ) 1 := by
  intro i
  show (update_ws _ _ _ _ _).2 i ∈ _
  rw [update_ws]
  cases additive
  · simpa using hs i
  · simpa using update_lam_mem _ _ _ i

/-- The whole loop preserves the unit-interval invariant on `λ`. -/
theorem fitLoop_lam_mem (noise tol : ℝ) (additive : Bool) (x : Matrix (Fin nn) (Fin dd) ℝ)
    (k : ℕ) (s : LoopState dd mm) (hs : ∀ i, s.lam i ∈ Set.Icc (0 : ℝ) 1) :
    ∀ i, (fitLoop noise tol additive x k s).1.lam i ∈ Set.Icc (0 : ℝ) 1 := by
  induction k generalizing s with
  | zero => simpa [fitLoop] using hs
  | succ k ih =>
    intro i
    simp only [fitLoop]
    split
    · exact fitStep_lam_mem noise additive x s hs i
    · exact ih (fitStep noise additive x s) (fitStep_lam_mem noise additive x s hs) i

/-- Claim C7, amended: provided the configured initial multiplier lies in
`[0, 1]`, every component of `λ` lies in `[0, 1]` at every point during and
after `fit` — initially it is the broadcast initial scalar, and each
recomputed component is `0` or a logistic-sigmoid value. -/
theorem claim_C7_amended (noise tol lamInit : ℝ) (additive gauss : Bool) (ppf : ℝ → ℝ)
    (x : Matrix (Fin nn) (Fin dd) ℝ) (w0 : Matrix (Fin mm) (Fin dd) ℝ)
    (fuel maxIter : ℕ) (i : Fin dd) (h1 : 0 ≤ lamInit) (h2 : lamInit ≤ 1) :
    (initState lamInit w0).lam i ∈ Set.Icc (0 : ℝ) 1
    ∧ (fitLoop noise tol additive (fitInput gauss ppf x) fuel
        (initState lamInit w0)).1.lam i ∈ Set.Icc (0 : ℝ) 1
    ∧ (fit noise tol additive gauss ppf lamInit maxIter x w0).lam i ∈ Set.Icc (0 : ℝ) 1 := by
  have hinit : ∀ j, (initState lamInit w0 : LoopState dd mm).lam j ∈ Set.Icc (0 : ℝ) 1 :=
    fun j => ⟨h1, h2⟩
  refine ⟨hinit i, fitLoop_lam_mem _ _ _ _ _ _ hinit i, ?_⟩
  show (fitLoop noise tol additive (fitInput gauss ppf x) maxIter
    (initState lamInit w0)).1.lam i ∈ Set.Icc (0 : ℝ) 1
  exact fitLoop_lam_mem _ _ _ _ _ _ hinit i

/-- Witness for the amended C7 at a concrete configuration with initial
multiplier `0`. -/
theorem claim_C7_witness :
    ((0 : ℝ) ≤ 0 ∧ (0 : ℝ) ≤ 1) ∧
      ((initState (0 : ℝ) !![(1 : ℝ)]).lam 0 ∈ Set.Icc (0 : ℝ) 1
      ∧ (fitLoop 1 1 true (fitInput false id !![(1 : ℝ)]) 3
          (initState (0 : ℝ) !![(1 : ℝ)])).1.lam 0 ∈ Set.Icc (0 : ℝ) 1
      ∧ (fit 1 1 true false id (0 : ℝ) 2 !![(1 : ℝ)] !![(1 : ℝ)]).lam 0 ∈ Set.Icc (0 : ℝ) 1) :=
  ⟨⟨by norm_num, by norm_num⟩,
    claim_C7_amended 1 1 0 true false id !![(1 : ℝ)] !![(1 : ℝ)] 3 2 0 (by norm_num) (by norm_num)⟩

/-- The state after a one-budget loop is the single-step state, whichever way
the convergence test goes. -/
theorem fitLoop_one_fst (noise tol : ℝ) (additive : Bool) (x : Matrix (Fin nn) (Fin dd) ℝ)
    (s : LoopState dd mm) :
    (fitLoop noise tol additive x 1 s).1 = fitStep noise additive x s := by
  rw [fitLoop]
  split
  · rfl
  · rfl

/-- Counterexample to claim C7 as stated: with the initial multiplier
configured to `2` (and no additivity enforcement), the multiplier vector
equals `2` everywhere during and after `fit`, outside `[0, 1]`. -/
theorem claim_C7_counterexample :
    (fit 1 1 false false id 2 1 !![(1 : ℝ)] !![(1 : ℝ)]).lam 0 = 2
    ∧ ¬ ((2 : ℝ) ∈ Set.Icc (0 : ℝ) 1) := by
  constructor
  · show (fitLoop 1 1 false (fitInput false id !![(1 : ℝ)]) 1
      (initState (2 : ℝ) !![(1 : ℝ)])).1.lam 0 = 2
    rw [fitLoop_one_fst]
    rfl
  · intro hmem
    have := hmem.2
    norm_num at this

/-- The loop never executes more bodies than its budget. -/
theorem fitLoop_count_le (noise tol : ℝ) (additive : Bool) (x : Matrix (Fin nn) (Fin dd) ℝ) :
    ∀ (k : ℕ) (s : LoopState dd mm), (fitLoop noise tol additive x k s).2.1 ≤ k := by
  intro k
  induction k with
  | zero => intro s; simp [fitLoop]
  | succ k ih =>
    intro s
    simp only [fitLoop]
    split
    · show 1 ≤ k + 1
      omega
    · show (fitLoop noise tol additive x k (fitStep noise additive x s)).2.1 + 1 ≤ k + 1
      have := ih (fitStep noise additive x s)
      omega

/-- If the loop did not exit through the `break`, it used its whole budget. -/
theorem fitLoop_exhaust (noise tol : ℝ) (additive : Bool) (x : Matrix (Fin nn) (Fin dd) ℝ) :
    ∀ (k : ℕ) (s : LoopState dd mm),
      (fitLoop noise tol additive x k s).2.2 = false →
        (fitLoop noise tol additive x k s).2.1 = k := by
  intro k
  induction k with
  | zero => intro s _; rfl
  | succ k ih =>
    intro s
    simp only [fitLoop]
    split
    · intro hfalse
      exact absurd hfalse (by simp)
    · intro hf
      show (fitLoop noise tol additive x k (fitStep noise additive x s)).2.1 + 1 = k + 1
      have := ih (fitStep noise additive x s) hf
      omega

/-- For a positive budget, the loop exits through the `break` exactly when the
last two entries of the total-correlation trace are within tolerance at the
exit state. -/
theorem fitLoop_conv_iff (noise tol : ℝ) (additive : Bool) (x : Matrix (Fin nn) (Fin dd) ℝ) :
    ∀ (k : ℕ) (s : LoopState dd mm), 1 ≤ k →
      ((fitLoop noise tol additive x k s).2.2 = true ↔
        convCheck tol (fitLoop noise tol additive x k s).1) := by
  intro k
  induction k with
  | zero => intro s h; exact absurd h (by omega)
  | succ k ih =>
    intro s _
    simp only [fitLoop]
    split
    next hc => simpa using hc
    next hc =>
      cases k with
      | zero => exact iff_of_false (by simp [fitLoop]) hc
      | succ k2 => exact ih (fitStep noise additive x s) (by omega)

/-- Claim C6: the iteration loop of `fit` executes at most `max_iter` bodies;
it exits through the `break` exactly when the last two trace entries differ by
less than `tol`; and when the budget is exhausted without convergence nothing
fails — `fit` still reorders the factor rows, refreshes the moments under the
returned weights, and returns the trained state with the loop's outcome
recorded. -/
theorem claim_C6 (noise tol lamInit : ℝ) (additive gauss : Bool) (ppf : ℝ → ℝ)
    (maxIter : ℕ) (x : Matrix (Fin nn) (Fin dd) ℝ) (w0 : Matrix (Fin mm) (Fin dd) ℝ)
    (h : 1 ≤ maxIter) :
    (fitLoop noise tol additive (fitInput gauss ppf x) maxIter
        (initState lamInit w0)).2.1 ≤ maxIter
    ∧ ((fitLoop noise tol additive (fitInput gauss ppf x) maxIter
          (initState lamInit w0)).2.2 = true ↔
        convCheck tol (fitLoop noise tol additive (fitInput gauss ppf x) maxIter
          (initState lamInit w0)).1)
    ∧ ((fitLoop noise tol additive (fitInput gauss ppf x) maxIter
          (initState lamInit w0)).2.2 = false →
        (fitLoop noise tol additive (fitInput gauss ppf x) maxIter
          (initState lamInit w0)).2.1 = maxIter)
    ∧ (fit noise tol additive gauss ppf lamInit maxIter x w0).ws =
        ((fitLoop noise tol additive (fitInput gauss ppf x) maxIter
          (initState lamInit w0)).1.ws).submatrix
          (fitOrd noise (fitLoop noise tol additive (fitInput gauss ppf x) maxIter
            (initState lamInit w0)).1) id
    ∧ (fit noise tol additive gauss ppf lamInit maxIter x w0).moments =
        some (calculate_moments noise (fitInput gauss ppf x)
          (fit noise tol additive gauss ppf lamInit maxIter x w0).ws
          (Option.map Moments.var (fitLoop noise tol additive (fitInput gauss ppf x) maxIter
            (initState lamInit w0)).1.mom))
    ∧ (fit noise tol additive gauss ppf lamInit maxIter x w0).converged =
        (fitLoop noise tol additive (fitInput gauss ppf x) maxIter
          (initState lamInit w0)).2.2
    ∧ (fit noise tol additive gauss ppf lamInit maxIter x w0).nIter =
        (fitLoop noise tol additive (fitInput gauss ppf x) maxIter
          (initState lamInit w0)).2.1 :=
  ⟨fitLoop_count_le noise tol additive _ maxIter _,
    fitLoop_conv_iff noise tol additive _ maxIter _ h,
    fitLoop_exhaust noise tol additive _ maxIter _,
    rfl, rfl, rfl, rfl⟩

/-- Witness for C6 at a concrete one-iteration configuration. -/
theorem claim_C6_witness :
    1 ≤ 1 ∧
      (fitLoop 1 1 false (fitInput false id !![(1 : ℝ)]) 1
        (initState (0 : ℝ) !![(1 : ℝ)])).2.1 ≤ 1 :=
  ⟨le_refl 1, (claim_C6 1 1 0 false false id 1 !![(1 : ℝ)] !![(1 : ℝ)] (le_refl 1)).1⟩

/-- The moments bundle with the factor axis relabelled by a permutation. -/
def permMoments (σ : Equiv.Perm (Fin mm)) (M : Moments dd mm) : Moments dd mm :=
  ⟨M.var, M.xy.submatrix id σ, M.cy.submatrix σ σ, M.xz.submatrix id σ, M.resid,
    fun j => M.y2 (σ j)⟩

/-- Permuting the rows of `W` permutes the columns of the cross moment. -/
theorem crossXY_perm (x : Matrix (Fin nn) (Fin dd) ℝ) (w : Matrix (Fin mm) (Fin dd) ℝ)
    (σ : Equiv.Perm (Fin mm)) :
    crossXY x (w.submatrix σ id) = (crossXY x w).submatrix id σ := by
  ext i j
  simp [crossXY, latentY, Matrix.mul_apply]

/-- Permuting the rows of `W` conjugates the latent covariance. -/
theorem covY_perm (noise : ℝ) (x : Matrix (Fin nn) (Fin dd) ℝ)
    (w : Matrix (Fin mm) (Fin dd) ℝ) (σ : Equiv.Perm (Fin mm)) :
    covY noise x (w.submatrix σ id) = (covY noise x w).submatrix σ σ := by
  ext r s
  simp [covY, crossXY_perm, Matrix.mul_apply, Matrix.one_apply, Equiv.apply_eq_iff_eq]

/-- The adjugate-based linear solve commutes with simultaneous relabelling. -/
theorem msolve_perm (A : Matrix (Fin mm) (Fin mm) ℝ) (B : Matrix (Fin mm) (Fin dd) ℝ)
    (σ : Equiv.Perm (Fin mm)) :
    msolve (A.submatrix σ σ) (B.submatrix σ id) = (msolve A B).submatrix σ id := by
  rw [msolve, msolve, Matrix.det_submatrix_equiv_self, Matrix.adjugate_submatrix_equiv_self]
  have h : (A.det⁻¹ • A.adjugate.submatrix ⇑σ ⇑σ) = (A.det⁻¹ • A.adjugate).submatrix ⇑σ ⇑σ := rfl
  rw [h, Matrix.submatrix_mul_equiv]

/-- Permuting the rows of `W` permutes the columns of the cleaned cross moment. -/
theorem crossXZ_perm (noise : ℝ) (x : Matrix (Fin nn) (Fin dd) ℝ)
    (w : Matrix (Fin mm) (Fin dd) ℝ) (σ : Equiv.Perm (Fin mm)) :
    crossXZ noise x (w.submatrix σ id) = (crossXZ noise x w).submatrix id σ := by
  rw [crossXZ, crossXZ, crossXY_perm, covY_perm, Matrix.transpose_submatrix, msolve_perm,
    Matrix.transpose_submatrix]

/-- Equivariance of the Moment Estimator: evaluating it at row-permuted
weights relabels the factor axis of every entry of the bundle and leaves the
per-variable entries unchanged. -/
theorem calculate_moments_perm (noise : ℝ) (x : Matrix (Fin nn) (Fin dd) ℝ)
    (w : Matrix (Fin mm) (Fin dd) ℝ) (cache : Option (Fin dd → ℝ))
    (σ : Equiv.Perm (Fin mm)) :
    calculate_moments noise x (w.submatrix σ id) cache =
      permMoments σ (calculate_moments noise x w cache) := by
  refine Moments.ext ?_ ?_ ?_ ?_ ?_ ?_
  · rfl
  · exact crossXY_perm x w σ
  · exact covY_perm noise x w σ
  · exact crossXZ_perm noise x w σ
  · funext i
    show varOrCache x cache i -
        ∑ j, crossXZ noise x (w.submatrix σ id) i j * crossXY x (w.submatrix σ id) i j =
      varOrCache x cache i - ∑ j, crossXZ noise x w i j * crossXY x w i j
    rw [crossXZ_perm, crossXY_perm]
    have := Equiv.sum_comp σ fun j => crossXZ noise x w i j * crossXY x w i j
    simp only [Matrix.submatrix_apply, id_eq]
    rw [this]
  · funext j
    show covY noise x (w.submatrix σ id) j j = covY noise x w (σ j) (σ j)
    rw [covY_perm]
    rfl

/-- Relabelling the factor axis relabels the total-correlation contributions. -/
theorem tcs_perm (noise : ℝ) (σ : Equiv.Perm (Fin mm)) (M : Moments dd mm) (j : Fin mm) :
    tcs noise (permMoments σ M) j = tcs noise M (σ j) := by
  simp [tcs, calculate_mi, permMoments]

/-- Claim C3, amended: after `fit`, the rows of the returned weight matrix are
a permutation of the pre-reordering rows, the returned moments are the moments
recomputed once under the returned row order, and the ordering permutation
sorts descending the contributions `TC_j` measured at the last in-loop
moments — the moments `argsort` actually reads. The contributions at the
returned (refreshed) moments are those of the refreshed pre-permutation
moments composed with this permutation, and need not be descending, because
the loop's last weight update happens after the moments that are sorted were
computed (see the counterexample). -/
theorem claim_C3_amended (noise tol lamInit : ℝ) (additive gauss : Bool) (ppf : ℝ → ℝ)
    (maxIter : ℕ) (x : Matrix (Fin nn) (Fin dd) ℝ) (w0 : Matrix (Fin mm) (Fin dd) ℝ)
    (_h : 1 ≤ maxIter) :
    (∃ σ : Equiv.Perm (Fin mm), ∀ j i,
      (fit noise tol additive gauss ppf lamInit maxIter x w0).ws j i =
        (fitLoop noise tol additive (fitInput gauss ppf x) maxIter
          (initState lamInit w0)).1.ws (σ j) i)
    ∧ (fit noise tol additive gauss ppf lamInit maxIter x w0).moments =
        some (calculate_moments noise (fitInput gauss ppf x)
          (fit noise tol additive gauss ppf lamInit maxIter x w0).ws
          (Option.map Moments.var (fitLoop noise tol additive (fitInput gauss ppf x) maxIter
            (initState lamInit w0)).1.mom))
    ∧ Antitone (fun j =>
        optTcs noise (fitLoop noise tol additive (fitInput gauss ppf x) maxIter
          (initState lamInit w0)).1.mom
          (fitOrd noise (fitLoop noise tol additive (fitInput gauss ppf x) maxIter
            (initState lamInit w0)).1 j))
    ∧ ∀ j, optTcs noise (fit noise tol additive gauss ppf lamInit maxIter x w0).moments j =
        tcs noise (calculate_moments noise (fitInput gauss ppf x)
          (fitLoop noise tol additive (fitInput gauss ppf x) maxIter
            (initState lamInit w0)).1.ws
          (Option.map Moments.var (fitLoop noise tol additive (fitInput gauss ppf x) maxIter
            (initState lamInit w0)).1.mom))
          (fitOrd noise (fitLoop noise tol additive (fitInput gauss ppf x) maxIter
            (initState lamInit w0)).1 j) := by
  refine ⟨⟨fitOrd noise (fitLoop noise tol additive (fitInput gauss ppf x) maxIter
    (initState lamInit w0)).1, fun j i => rfl⟩, rfl, ?_, ?_⟩
  · intro a b hab
    have h2 := Tuple.monotone_sort
      (fun j => -(optTcs noise (fitLoop noise tol additive (fitInput gauss ppf x) maxIter
        (initState lamInit w0)).1.mom j)) hab
    simp only [Function.comp_apply] at h2
    exact neg_le_neg_iff.mp h2
  · intro j
    show optTcs noise (some (calculate_moments noise (fitInput gauss ppf x) _ _)) j = _
    rw [optTcs]
    show tcs noise (calculate_moments noise (fitInput gauss ppf x)
      (((fitLoop noise tol additive (fitInput gauss ppf x) maxIter
        (initState lamInit w0)).1.ws).submatrix
        (fitOrd noise (fitLoop noise tol additive (fitInput gauss ppf x) maxIter
          (initState lamInit w0)).1) id)
      (Option.map Moments.var (fitLoop noise tol additive (fitInput gauss ppf x) maxIter
        (initState lamInit w0)).1.mom)) j = _
    rw [calculate_moments_perm, tcs_perm]

/-- Witness for the amended C3 at a concrete one-iteration configuration. -/
theorem claim_C3_witness :
    1 ≤ 1 ∧ Antitone (fun j =>
      optTcs 1 (fitLoop 1 1 false (fitInput false id !![(1 : ℝ)]) 1
        (initState (0 : ℝ) !![(1 : ℝ)])).1.mom
        (fitOrd 1 (fitLoop 1 1 false (fitInput false id !![(1 : ℝ)]) 1
          (initState (0 : ℝ) !![(1 : ℝ)])).1 j)) :=
  ⟨le_refl 1,
    (claim_C3_amended 1 1 0 false false id 1 !![(1 : ℝ)] !![(1 : ℝ)] (le_refl 1)).2.2.1⟩

/-- Concrete zero-column-mean data exhibiting the stale-ordering behaviour of
`fit`: three samples of two variables. -/
def xC3 : Matrix (Fin 3) (Fin 2) ℝ := !![-2, -2; 0, 1; 2, 1]

/-- Concrete starting weights for the stale-ordering counterexample. -/
def wC3 : Matrix (Fin 2) (Fin 2) ℝ := !![-2, -2; -1, -1]

/-- The weights after the single loop iteration of the counterexample run. -/
def wC3u : Matrix (Fin 2) (Fin 2) ℝ :=
  !![-4861/3458, -2364/1729; -3883/6916, -1875/3458]

/-- The counterexample data has zero column means, so centering fixes it. -/
theorem hcenterC3 : fitInput false id xC3 = xC3 := by
  show center xC3 = xC3
  ext l i
  fin_cases l <;> fin_cases i <;>
    norm_num [center, colMean, Fin.sum_univ_three, xC3, Matrix.cons_val_zero,
      Matrix.cons_val_one, Matrix.head_cons]

/-- Cross moment of the counterexample data at the starting weights. -/
theorem hxyC3 : crossXY xC3 wC3 = !![-28/3, -14/3; -8, -4] := by
  ext i j
  fin_cases i <;> fin_cases j <;>
    norm_num [crossXY, latentY, Matrix.mul_apply, Fin.sum_univ_three, Fin.sum_univ_two, xC3,
      wC3, Matrix.cons_val_zero, Matrix.cons_val_one, Matrix.head_cons, Matrix.transpose_apply,
      Matrix.vecHead, Matrix.vecTail]

/-- Latent covariance of the counterexample data at the starting weights. -/
theorem hcyC3 : covY 1 xC3 wC3 = !![107/3, 52/3; 52/3, 29/3] := by
  rw [covY, hxyC3]
  ext r s
  fin_cases r <;> fin_cases s <;>
    norm_num [Matrix.mul_apply, Fin.sum_univ_two, Matrix.one_apply, wC3, Matrix.cons_val_zero,
      Matrix.cons_val_one, Matrix.head_cons]

/-- Transposed cross moment, as fed to the linear solve. -/
theorem hxyTC3 : (crossXY xC3 wC3)ᵀ = !![-28/3, -8; -14/3, -4] := by
  rw [hxyC3]
  ext i j
  fin_cases i <;> fin_cases j <;>
    norm_num [Matrix.transpose_apply, Matrix.cons_val_zero, Matrix.cons_val_one,
      Matrix.head_cons]

/-- Cleaned cross moment of the counterexample data at the starting weights. -/
theorem hxzC3 : crossXZ 1 xC3 wC3 = !![-4/19, -2/19; -24/133, -12/133] := by
  rw [crossXZ, hcyC3, hxyTC3, msolve, Matrix.det_fin_two, Matrix.adjugate_fin_two]
  ext i j
  fin_cases i <;> fin_cases j <;>
    norm_num [Matrix.mul_apply, Fin.sum_univ_two, Matrix.smul_apply, Matrix.transpose_apply,
      Matrix.cons_val_zero, Matrix.cons_val_one, Matrix.head_cons]

/-- Variance of the counterexample data. -/
theorem hM0var : (calculate_moments 1 xC3 wC3 none).var = ![8/3, 2] := by
  funext i
  show varOrCache xC3 none i = _
  fin_cases i <;>
    norm_num [varOrCache, Fin.sum_univ_three, xC3, Matrix.cons_val_zero, Matrix.cons_val_one,
      Matrix.head_cons]

/-- Cross moment, read off the first-iteration moments bundle. -/
theorem hM0xy : (calculate_moments 1 xC3 wC3 none).xy = !![-28/3, -14/3; -8, -4] := hxyC3

/-- Latent second moments, read off the first-iteration moments bundle. -/
theorem hM0y2 : (calculate_moments 1 xC3 wC3 none).y2 = ![107/3, 29/3] := by
  funext j
  show covY 1 xC3 wC3 j j = _
  rw [hcyC3]
  fin_cases j <;>
    norm_num [Matrix.cons_val_zero, Matrix.cons_val_one, Matrix.head_cons]

/-- Cleaned cross moment, read off the first-iteration moments bundle. -/
theorem hM0xz : (calculate_moments 1 xC3 wC3 none).xz = !![-4/19, -2/19; -24/133, -12/133] :=
  hxzC3

/-- Residual variances, read off the first-iteration moments bundle. -/
theorem hM0resid : (calculate_moments 1 xC3 wC3 none).resid = ![4/19, 26/133] := by
  funext i
  show varOrCache xC3 none i - ∑ j, crossXZ 1 xC3 wC3 i j * crossXY xC3 wC3 i j = _
  rw [hxzC3, hxyC3]
  fin_cases i <;>
    norm_num [varOrCache, Fin.sum_univ_three, Fin.sum_univ_two, xC3, Matrix.cons_val_zero,
      Matrix.cons_val_one, Matrix.head_cons]

/-- The single weight update of the counterexample run, evaluated. -/
theorem hupdC3 :
    update_w 1 (calculate_moments 1 xC3 wC3 none) wC3 (fun _ => 0) = wC3u := by
  ext j i
  simp only [update_w, Matrix.of_apply, updateR, updateQ, interHz, interH, Matrix.mul_apply,
    hM0xy, hM0xz, hM0resid, hM0var, hM0y2]
  fin_cases j <;> fin_cases i <;>
    norm_num [Fin.sum_univ_two, wC3, wC3u, Matrix.cons_val_zero, Matrix.cons_val_one,
      Matrix.head_cons]

/-- Cross moment of the counterexample data at the updated weights. -/
theorem hxyuC3 :
    crossXY xC3 wC3u = !![-4804/741, -1913/741; -9589/1729, -7633/3458] := by
  ext i j
  fin_cases i <;> fin_cases j <;>
    norm_num [crossXY, latentY, Matrix.mul_apply, Fin.sum_univ_three, Fin.sum_univ_two, xC3,
      wC3u, Matrix.cons_val_zero, Matrix.cons_val_one, Matrix.head_cons, Matrix.transpose_apply,
      Matrix.vecHead, Matrix.vecTail]

/-- Cross moment, read off the refreshed moments bundle at updated weights. -/
theorem hM1xy :
    (calculate_moments 1 xC3 wC3u (some (calculate_moments 1 xC3 wC3 none).var)).xy =
      !![-4804/741, -1913/741; -9589/1729, -7633/3458] := hxyuC3

/-- Variance, read off the refreshed moments bundle (the cached entry). -/
theorem hM1var :
    (calculate_moments 1 xC3 wC3u (some (calculate_moments 1 xC3 wC3 none).var)).var =
      ![8/3, 2] := hM0var

/-- Latent second moments at the updated weights. -/
theorem hM1y2 :
    (calculate_moments 1 xC3 wC3u (some (calculate_moments 1 xC3 wC3 none).var)).y2 =
      ![158706365/8968323, 65403085/17936646] := by
  funext j
  show covY 1 xC3 wC3u j j = _
  rw [covY, hxyuC3]
  fin_cases j <;>
    norm_num [Matrix.mul_apply, Fin.sum_univ_two, Matrix.one_apply, wC3u, Matrix.cons_val_zero,
      Matrix.cons_val_one, Matrix.head_cons]

/-- At the moments the final `argsort` reads, factor 0 contributes strictly
less total correlation than factor 1. -/
theorem hAC3 :
    tcs 1 (calculate_moments 1 xC3 wC3 none) 0 < tcs 1 (calculate_moments 1 xC3 wC3 none) 1 := by
  have h1 : Real.log ((9 : ℝ)/58 * (5/29) * (29/3)) <
      Real.log ((9 : ℝ)/107 * (11/107) * (107/3)) :=
    Real.log_lt_log (by norm_num) (by norm_num)
  rw [Real.log_mul (by norm_num) (by norm_num), Real.log_mul (by norm_num) (by norm_num),
    Real.log_mul (by norm_num) (by norm_num), Real.log_mul (by norm_num) (by norm_num)] at h1
  simp only [tcs, calculate_mi, Matrix.of_apply, Fin.sum_univ_two, hM0xy, hM0y2, hM0var,
    Matrix.cons_val_zero, Matrix.cons_val_one, Matrix.head_cons]
  norm_num
  linarith

/-- At the refreshed moments (after the last weight update), the ranking has
flipped: factor 1 contributes strictly less than factor 0. -/
theorem hBC3 :
    tcs 1 (calculate_moments 1 xC3 wC3u (some (calculate_moments 1 xC3 wC3 none).var)) 1 <
      tcs 1 (calculate_moments 1 xC3 wC3u (some (calculate_moments 1 xC3 wC3 none).var)) 0 := by
  have h1 : Real.log ((17351067 : ℝ)/158706365 * (41565967/317412730) * (158706365/8968323)) <
      Real.log ((82293459 : ℝ)/261612340 * (86824273/261612340) * (65403085/17936646)) :=
    Real.log_lt_log (by norm_num) (by norm_num)
  rw [Real.log_mul (by norm_num) (by norm_num), Real.log_mul (by norm_num) (by norm_num),
    Real.log_mul (by norm_num) (by norm_num), Real.log_mul (by norm_num) (by norm_num)] at h1
  simp only [tcs, calculate_mi, Matrix.of_apply, Fin.sum_univ_two, hM1xy, hM1y2, hM1var,
    Matrix.cons_val_zero, Matrix.cons_val_one, Matrix.head_cons]
  norm_num
  linarith

/-- The loop state reached by the one-iteration counterexample run: weights. -/
theorem hwsC3 :
    (fitLoop 1 1 false xC3 1 (initState (0 : ℝ) wC3)).1.ws = wC3u := by
  rw [fitLoop_one_fst]
  show update_w 1 (calculate_moments 1 xC3 wC3 none) wC3 (fun _ => 0) = wC3u
  exact hupdC3

/-- The loop state reached by the one-iteration counterexample run: moments. -/
theorem hmomC3 :
    (fitLoop 1 1 false xC3 1 (initState (0 : ℝ) wC3)).1.mom =
      some (calculate_moments 1 xC3 wC3 none) := by
  rw [fitLoop_one_fst]
  rfl

/-- The ordering permutation of the counterexample run swaps the two factors,
because at the stale moments factor 1 contributes more. -/
theorem hordC3 :
    fitOrd 1 (fitLoop 1 1 false xC3 1 (initState (0 : ℝ) wC3)).1 =
      Equiv.swap 0 1 := by
  rw [fitOrd, hmomC3]
  symm
  rw [Tuple.eq_sort_iff]
  constructor
  · intro a b hab
    fin_cases a <;> fin_cases b
    · exact le_refl _
    · simp only [Function.comp_apply, Fin.mk_zero, Fin.mk_one, Equiv.swap_apply_left,
        Equiv.swap_apply_right, optTcs, Option.map_some', Option.getD_some]
      have := hAC3
      linarith
    · exact absurd hab (by decide)
    · exact le_refl _
  · intro i j hij hfe
    fin_cases i <;> fin_cases j
    · exact absurd hij (lt_irrefl _)
    · exfalso
      simp only [Fin.mk_zero, Fin.mk_one, Equiv.swap_apply_left, Equiv.swap_apply_right,
        optTcs, Option.map_some', Option.getD_some, neg_inj] at hfe
      have := hAC3
      linarith
    · exact absurd hij (by decide)
    · exact absurd hij (lt_irrefl _)

/-- Counterexample to claim C3 as stated: on the concrete one-iteration run
the per-factor total-correlation contributions evaluated at the moments
returned with the model are strictly increasing in the factor index, not
descending — `argsort` sorted the stale pre-update contributions, and the
last weight update flipped the ranking. -/
theorem claim_C3_counterexample :
    optTcs 1 (fit 1 1 false false id 0 1 xC3 wC3).moments 0 <
      optTcs 1 (fit 1 1 false false id 0 1 xC3 wC3).moments 1 := by
  simp only [fit]
  rw [hcenterC3, hwsC3, hmomC3, hordC3]
  have hcache : Option.map Moments.var (some (calculate_moments 1 xC3 wC3 none)) =
      some ((calculate_moments 1 xC3 wC3 none).var) := rfl
  rw [hcache, calculate_moments_perm]
  show tcs 1 (permMoments (Equiv.swap 0 1)
      (calculate_moments 1 xC3 wC3u (some (calculate_moments 1 xC3 wC3 none).var))) 0 <
    tcs 1 (permMoments (Equiv.swap 0 1)
      (calculate_moments 1 xC3 wC3u (some (calculate_moments 1 xC3 wC3 none).var))) 1
  rw [tcs_perm, tcs_perm, Equiv.swap_apply_left, Equiv.swap_apply_right]
  exact hBC3

end

end LinearCorex
